import Mathlib

/-!
Shallow embedding of the likelihood engine of the nuXgal repository
(`src/KIPAC/nuXgal/Likelihood.py`, `src/KIPAC/nuXgal/BeamLikelihood.py`,
`src/KIPAC/nuXgal/Defaults.py`) together with theorems settling the
specification claims about it.

Modelling conventions.  The numpy arrays of the Python source are modelled
as functions (`ℕ → ℚ` for 1-d arrays, `ℕ → ℕ → ℚ` for the 2-d arrays
indexed by energy bin and multipole), and the floating-point arithmetic of
the source is modelled by exact rational arithmetic.  Python `-np.inf`
sentinels are modelled by `⊥ : WithBot ℚ`.  The scipy library routines
called by the source (`distributions.chi2.sf`, `norm.isf`,
`multivariate_normal.logpdf`) are external library capabilities and are
modelled by their mathematical definitions over `ℝ`: the chi-squared
survival function via Mathlib's Gamma distribution (a chi-squared law with
`k` degrees of freedom is a Gamma law with shape `k/2` and rate `1/2`),
the inverse survival function of the standard normal as the inverse of the
standard normal survival function, and the multivariate normal log-density
by its closed formula.  The scipy optimizer `scipy.optimize.minimize` is
an external numerical primitive; its output is modelled as an arbitrary
point satisfying the optimizer contract (a bounded minimizer of the
negative log-likelihood), passed as an explicit argument.
-/

namespace NuXgal

/-- State of a `Likelihood` object (`Likelihood.py`), holding the fields read
by the likelihood evaluation methods: the configured energy-bin range
`[Ebinmin, Ebinmax)`, the multipole cutoff `lmin`, the number of multipoles
`ncl` (`Defaults.NCL`, the common length of all spectra), the observed
cross-correlation `w_data`, the signal template `w_model_f1`, the
atmospheric (background) template `w_atm_mean`, and the per-multipole
standard deviation `w_std` with its square `w_std_square` (two separate
attributes in the source, kept as two separate fields here). -/
structure LikelihoodState where
  Ebinmin : ℕ
  Ebinmax : ℕ
  lmin : ℕ
  ncl : ℕ
  w_data : ℕ → ℕ → ℚ
  w_model_f1 : ℕ → ℕ → ℚ
  w_atm_mean : ℕ → ℕ → ℚ
  w_std : ℕ → ℕ → ℚ
  w_std_square : ℕ → ℕ → ℚ

/-- `Likelihood.log_likelihood_Ebin` (Likelihood.py lines 291-313):
`w_model_mean = w_model_f1[energyBin] * f + w_atm_mean[energyBin] * (1 - f)`,
`lnL_le = -(w_data[energyBin] - w_model_mean) ** 2 / w_std_square[energyBin] / 2`,
returning `np.sum(lnL_le[lmin:])`. -/
def log_likelihood_Ebin (st : LikelihoodState) (f : ℚ) (energyBin : ℕ) : ℚ :=
  ∑ l in Finset.Ico st.lmin st.ncl,
    -((st.w_data energyBin l -
        (st.w_model_f1 energyBin l * f + st.w_atm_mean energyBin l * (1 - f))) ^ 2
      / st.w_std_square energyBin l / 2)

/-- `Likelihood.log_likelihood` (Likelihood.py lines 316-340): the vectorized
evaluation over the energy-bin slice `[Ebinmin:Ebinmax]`, with
`w_model_mean = (w_model_f1[Ebinmin:Ebinmax].T * f).T + (w_atm_mean[...].T * (1-f)).T`
(so row `ebin` is scaled by `f[ebin - Ebinmin]`),
`w_model_std_square = w_std[Ebinmin:Ebinmax] ** 2`, and the return value
`np.sum(lnL_le[:, lmin:])`. -/
def log_likelihood (st : LikelihoodState) (f : ℕ → ℚ) : ℚ :=
  ∑ e in Finset.Ico st.Ebinmin st.Ebinmax, ∑ l in Finset.Ico st.lmin st.ncl,
    -((st.w_data e l -
        (st.w_model_f1 e l * f (e - st.Ebinmin) +
          st.w_atm_mean e l * (1 - f (e - st.Ebinmin)))) ^ 2
      / st.w_std e l ^ 2 / 2)

/-- `Likelihood.chi_square_Ebin` (Likelihood.py lines 343-349):
`chisquare = (w_data[energyBin] - w_model_mean) ** 2 / w_std_square[energyBin]`,
returning `np.sum(chisquare[lmin:])`. -/
def chi_square_Ebin (st : LikelihoodState) (f : ℚ) (energyBin : ℕ) : ℚ :=
  ∑ l in Finset.Ico st.lmin st.ncl,
    (st.w_data energyBin l -
        (st.w_model_f1 energyBin l * f + st.w_atm_mean energyBin l * (1 - f))) ^ 2
      / st.w_std_square energyBin l

/-- `Likelihood.anafastMask` (Likelihood.py lines 136-146): a boolean array of
`Defaults.NPIXEL` entries is set at the indices of the southern-sky muon mask
`idx_muon` and at the indices of the galaxy-sample mask `idx_galaxymask`;
`idx_mask = np.where(mask_nu != 0)` is the set of pixels marked by either
(the union), and `f_sky = 1 - len(idx_mask[0]) / float(NPIXEL)`.  The fixed
pixel count `Defaults.NPIXEL` is kept as a parameter `npixel`. -/
def anafastMask (npixel : ℕ) (idx_muon idx_galaxymask : Finset (Fin npixel)) :
    Finset (Fin npixel) × ℚ :=
  let idx_mask := idx_muon ∪ idx_galaxymask
  (idx_mask, 1 - (idx_mask.card : ℚ) / (npixel : ℚ))

/-- C7: For every engine state, fraction and energy bin, `chi_square_Ebin`
equals `-2` times `log_likelihood_Ebin`. -/
theorem chi_square_Ebin_eq_neg_two_mul_log_likelihood_Ebin
    (st : LikelihoodState) (f : ℚ) (energyBin : ℕ) :
    chi_square_Ebin st f energyBin = -2 * log_likelihood_Ebin st f energyBin := by
  unfold chi_square_Ebin log_likelihood_Ebin
  rw [Finset.mul_sum]
  refine Finset.sum_congr rfl fun l _ => ?_
  ring

/-- C2 counterexample: on a fully masked sky (every pixel in the detector
mask), the code computes `f_sky = 0`, whereas the claimed formula
`1 - (usable pixel count / total pixel count)` evaluates to `1` (the usable
pixel count of the fully masked sky being `0`); the two disagree. -/
theorem anafastMask_f_sky_ne_claimed_formula :
    ¬ ((anafastMask 1 Finset.univ ∅).2 =
        1 - (((1 : ℚ) - ((Finset.univ ∪ (∅ : Finset (Fin 1))).card : ℚ)) / (1 : ℚ))) := by
  simp only [anafastMask, Finset.union_empty, Finset.card_univ, Fintype.card_fin]
  norm_num

/-- C2 (amended): for every positive pixel count and every pair of masks, the
sky fraction computed by `anafastMask` equals the usable-pixel count (total
pixels minus masked pixels) divided by the total pixel count, i.e.
`1 - (masked pixel count / total pixel count)`; in particular an all-masked
sky yields sky fraction zero. -/
theorem anafastMask_f_sky_eq_usable_frac
    (npixel : ℕ) (hn : 0 < npixel) (idx_muon idx_galaxymask : Finset (Fin npixel)) :
    (anafastMask npixel idx_muon idx_galaxymask).2 =
      ((npixel : ℚ) - ((idx_muon ∪ idx_galaxymask).card : ℚ)) / (npixel : ℚ) ∧
    (idx_muon ∪ idx_galaxymask = Finset.univ →
      (anafastMask npixel idx_muon idx_galaxymask).2 = 0) := by
  have hq : (npixel : ℚ) ≠ 0 := by exact_mod_cast hn.ne'
  constructor
  · unfold anafastMask
    field_simp
  · intro hall
    unfold anafastMask
    simp only [hall, Finset.card_univ, Fintype.card_fin]
    field_simp

/-- C2 witness: the amended formula evaluated at a concrete pixelization with
4 pixels, 2 of them masked. -/
theorem anafastMask_f_sky_eq_usable_frac_witness :
    (anafastMask 4 {0} {1}).2 =
      ((4 : ℚ) - ((({0} : Finset (Fin 4)) ∪ {1}).card : ℚ)) / (4 : ℚ) :=
  (anafastMask_f_sky_eq_usable_frac 4 (by decide) {0} {1}).1

/-- `Likelihood.minimize__lnL_analytic` (Likelihood.py lines 351-363), the
closed-form estimate for relative bin index `i` (absolute bin
`ebin = Ebinmin + i`): with `cgg = w_model_f1[ebin, lmin:]`,
`cgnu = w_data[ebin, lmin:]`, `cgatm = w_atm_mean[ebin, lmin:]` and
`cstd = w_std[ebin, lmin:]`,
`f[i] = sum((cgg-cgatm)*(cgnu-cgatm)/cstd**2) / sum((cgg-cgatm)**2/cstd**2)`. -/
def minimize__lnL_analytic_f (st : LikelihoodState) (i : ℕ) : ℚ :=
  (∑ l in Finset.Ico st.lmin st.ncl,
      (st.w_model_f1 (st.Ebinmin + i) l - st.w_atm_mean (st.Ebinmin + i) l) *
        (st.w_data (st.Ebinmin + i) l - st.w_atm_mean (st.Ebinmin + i) l)
        / st.w_std (st.Ebinmin + i) l ^ 2) /
  (∑ l in Finset.Ico st.lmin st.ncl,
      (st.w_model_f1 (st.Ebinmin + i) l - st.w_atm_mean (st.Ebinmin + i) l) ^ 2
        / st.w_std (st.Ebinmin + i) l ^ 2)

/-- `Likelihood.minimize__lnL` (Likelihood.py lines 366-386) minimizes
`nll = -log_likelihood` with `scipy.optimize.minimize` under the bounds
`[(0, 1)] * len_f` and returns the pair of `soln.x` and the test statistic
`(log_likelihood(soln.x) - log_likelihood(zeros)) * 2`.  The optimizer is an
external numerical primitive; its output `soln.x` is modelled as the explicit
argument `x`, and this definition is the test statistic the method returns. -/
def minimize__lnL_TS (st : LikelihoodState) (x : ℕ → ℚ) : ℚ :=
  (log_likelihood st x - log_likelihood st (fun _ => 0)) * 2

/-- A small concrete engine state (one energy bin, one multipole) used to
instantiate hypotheses of the claim theorems on concrete inputs. -/
def sampleState : LikelihoodState where
  Ebinmin := 0
  Ebinmax := 1
  lmin := 0
  ncl := 1
  w_data := fun _ _ => 1
  w_model_f1 := fun _ _ => 2
  w_atm_mean := fun _ _ => 0
  w_std := fun _ _ => 1
  w_std_square := fun _ _ => 1

/-- A small concrete engine state whose observed spectrum equals the
background template exactly (one energy bin, one multipole). -/
def nullDataState : LikelihoodState where
  Ebinmin := 0
  Ebinmax := 1
  lmin := 0
  ncl := 1
  w_data := fun _ _ => 0
  w_model_f1 := fun _ _ => 1
  w_atm_mean := fun _ _ => 0
  w_std := fun _ _ => 1
  w_std_square := fun _ _ => 1

/-- C6: on every state satisfying the source invariant
`w_std_square = w_std ** 2` (established at every site that sets the two
attributes: Likelihood.py lines 123, 251, 280-281, 287-288), the vectorized
`log_likelihood(f)` equals the sum over energy bins `ebin` in
`[Ebinmin, Ebinmax)` of `log_likelihood_Ebin(f[ebin - Ebinmin], ebin)`. -/
theorem log_likelihood_eq_sum_log_likelihood_Ebin
    (st : LikelihoodState) (f : ℕ → ℚ)
    (hsq : ∀ e l, st.w_std_square e l = st.w_std e l ^ 2) :
    log_likelihood st f =
      ∑ e in Finset.Ico st.Ebinmin st.Ebinmax,
        log_likelihood_Ebin st (f (e - st.Ebinmin)) e := by
  unfold log_likelihood log_likelihood_Ebin
  refine Finset.sum_congr rfl fun e _ => Finset.sum_congr rfl fun l _ => ?_
  rw [hsq]

/-- C6 witness: the decomposition evaluated on a concrete state and fraction
vector. -/
theorem log_likelihood_eq_sum_log_likelihood_Ebin_witness :
    log_likelihood sampleState (fun _ => 1) =
      ∑ e in Finset.Ico sampleState.Ebinmin sampleState.Ebinmax,
        log_likelihood_Ebin sampleState ((fun _ => (1 : ℚ)) (e - sampleState.Ebinmin)) e :=
  log_likelihood_eq_sum_log_likelihood_Ebin sampleState (fun _ => 1)
    (fun _ _ => by norm_num [sampleState])

/-- The per-bin log-likelihood as a quadratic polynomial in the fraction `f`,
on states satisfying the `w_std_square = w_std ** 2` invariant. -/
lemma log_likelihood_Ebin_quadratic (st : LikelihoodState) (f : ℚ) (e : ℕ)
    (hsq : ∀ l, st.w_std_square e l = st.w_std e l ^ 2) :
    log_likelihood_Ebin st f e =
      -(1/2) * ((∑ l in Finset.Ico st.lmin st.ncl,
          (st.w_data e l - st.w_atm_mean e l) ^ 2 / st.w_std e l ^ 2)
        - 2 * f * (∑ l in Finset.Ico st.lmin st.ncl,
          (st.w_model_f1 e l - st.w_atm_mean e l) * (st.w_data e l - st.w_atm_mean e l)
            / st.w_std e l ^ 2)
        + f ^ 2 * (∑ l in Finset.Ico st.lmin st.ncl,
          (st.w_model_f1 e l - st.w_atm_mean e l) ^ 2 / st.w_std e l ^ 2)) := by
  unfold log_likelihood_Ebin
  simp only [Finset.mul_sum, ← Finset.sum_sub_distrib, ← Finset.sum_add_distrib]
  refine Finset.sum_congr rfl fun l _ => ?_
  rw [hsq l]
  ring

/-- C5: on every state satisfying the `w_std_square = w_std ** 2` invariant,
for every relative index `i` with `Ebinmin + i < Ebinmax` such that the
denominator `sum((S-B)**2/sigma**2)` of the closed-form estimate is positive,
the fraction computed by `minimize__lnL_analytic` for that bin is the exact
unconstrained maximizer of that bin's diagonal-Gaussian log-likelihood: it
dominates every other fraction, and any fraction attaining the same value
equals it. -/
theorem minimize__lnL_analytic_f_maximizes
    (st : LikelihoodState) (i : ℕ) (hi : st.Ebinmin + i < st.Ebinmax)
    (hsq : ∀ l, st.w_std_square (st.Ebinmin + i) l = st.w_std (st.Ebinmin + i) l ^ 2)
    (hA : 0 < ∑ l in Finset.Ico st.lmin st.ncl,
        (st.w_model_f1 (st.Ebinmin + i) l - st.w_atm_mean (st.Ebinmin + i) l) ^ 2
          / st.w_std (st.Ebinmin + i) l ^ 2) :
    (∀ f, log_likelihood_Ebin st f (st.Ebinmin + i) ≤
        log_likelihood_Ebin st (minimize__lnL_analytic_f st i) (st.Ebinmin + i)) ∧
    (∀ f, log_likelihood_Ebin st f (st.Ebinmin + i) =
        log_likelihood_Ebin st (minimize__lnL_analytic_f st i) (st.Ebinmin + i) →
        f = minimize__lnL_analytic_f st i) := by
  set A := ∑ l in Finset.Ico st.lmin st.ncl,
      (st.w_model_f1 (st.Ebinmin + i) l - st.w_atm_mean (st.Ebinmin + i) l) ^ 2
        / st.w_std (st.Ebinmin + i) l ^ 2 with hAdef
  set B := ∑ l in Finset.Ico st.lmin st.ncl,
      (st.w_model_f1 (st.Ebinmin + i) l - st.w_atm_mean (st.Ebinmin + i) l) *
        (st.w_data (st.Ebinmin + i) l - st.w_atm_mean (st.Ebinmin + i) l)
        / st.w_std (st.Ebinmin + i) l ^ 2 with hBdef
  have hfh : minimize__lnL_analytic_f st i = B / A := rfl
  have key : ∀ f, log_likelihood_Ebin st f (st.Ebinmin + i) =
      log_likelihood_Ebin st (B / A) (st.Ebinmin + i) - (1/2) * A * (f - B / A) ^ 2 := by
    intro f
    rw [log_likelihood_Ebin_quadratic st f _ hsq, log_likelihood_Ebin_quadratic st (B / A) _ hsq,
      ← hAdef, ← hBdef]
    field_simp
    ring
  constructor
  · intro f
    rw [hfh, key f]
    have hnn : 0 ≤ (1/2) * A * (f - B / A) ^ 2 := by positivity
    linarith
  · intro f hf
    rw [hfh] at hf ⊢
    have h0 : (1/2) * A * (f - B / A) ^ 2 = 0 := by
      have := key f
      linarith
    have h1 : (f - B / A) ^ 2 = 0 := by
      rcases mul_eq_zero.mp h0 with h | h
      · rcases mul_eq_zero.mp h with h | h
        · norm_num at h
        · exact absurd h hA.ne'
      · exact h
    have := pow_eq_zero_iff (n := 2) (by norm_num) |>.mp h1
    linarith [sub_eq_zero.mp this]

/-- C5 witness: on a concrete state the closed-form fraction dominates the
fraction 0. -/
theorem minimize__lnL_analytic_f_maximizes_witness :
    log_likelihood_Ebin sampleState 0 (sampleState.Ebinmin + 0) ≤
      log_likelihood_Ebin sampleState (minimize__lnL_analytic_f sampleState 0)
        (sampleState.Ebinmin + 0) :=
  (minimize__lnL_analytic_f_maximizes sampleState 0 (by norm_num [sampleState])
    (fun _ => by norm_num [sampleState])
    (by norm_num [sampleState, ← Finset.range_eq_Ico])).1 0

/-- C3: when the optimizer output `x` satisfies its contract (it maximizes
the log-likelihood over the bounded box `[0,1]^k`), the test statistic
returned by `minimize__lnL` equals
`2 * (log_likelihood(x) - log_likelihood(zeros))` clamped to be nonnegative
(the clamp is the identity here because the exact-arithmetic test statistic
is never negative, so no clamp event can occur), and in particular it is at
least `-1e-9`. -/
theorem minimize__lnL_TS_eq_clamped
    (st : LikelihoodState) (x : ℕ → ℚ)
    (hopt : ∀ y : ℕ → ℚ, (∀ i, 0 ≤ y i ∧ y i ≤ 1) →
      log_likelihood st y ≤ log_likelihood st x) :
    minimize__lnL_TS st x =
      max 0 (2 * (log_likelihood st x - log_likelihood st (fun _ => 0))) ∧
    -(1 / 1000000000 : ℚ) ≤ minimize__lnL_TS st x := by
  have h0 : log_likelihood st (fun _ => 0) ≤ log_likelihood st x :=
    hopt (fun _ => 0) (fun _ => by norm_num)
  constructor
  · unfold minimize__lnL_TS
    rw [max_eq_right (by linarith)]
    ring
  · unfold minimize__lnL_TS
    linarith

/-- C3 witness: on a concrete state whose data equals the background, the
zero vector maximizes the log-likelihood over the box, and the returned test
statistic is the clamped value. -/
theorem minimize__lnL_TS_eq_clamped_witness :
    minimize__lnL_TS nullDataState (fun _ => 0) =
      max 0 (2 * (log_likelihood nullDataState (fun _ => 0) -
        log_likelihood nullDataState (fun _ => 0))) :=
  (minimize__lnL_TS_eq_clamped nullDataState (fun _ => 0) (fun y _ => by
    simp only [log_likelihood, nullDataState, ← Finset.range_eq_Ico, Finset.sum_range_one]
    nlinarith [sq_nonneg (y 0)])).1

/-- The value of `np.min` on the array of the first `n` entries of `f`
(folding the binary minimum over the entries; for `n ≥ 1` this is the least
entry). -/
def npMin (n : ℕ) (f : ℕ → ℚ) : ℚ := ((List.range n).map f).foldr min (f 0)

/-- The value of `np.max` on the array of the first `n` entries of `f`
(folding the binary maximum over the entries; for `n ≥ 1` this is the
greatest entry). -/
def npMax (n : ℕ) (f : ℕ → ℚ) : ℚ := ((List.range n).map f).foldr max (f 0)

lemma lt_foldr_min_iff {a b : ℚ} {l : List ℚ} :
    a < l.foldr min b ↔ a < b ∧ ∀ x ∈ l, a < x := by
  induction l with
  | nil => simp
  | cons x l ih =>
    simp only [List.foldr_cons, lt_min_iff, ih, List.mem_cons]
    constructor
    · rintro ⟨hx, hb, hl⟩
      exact ⟨hb, fun y hy => hy.elim (fun h => h ▸ hx) (hl y)⟩
    · rintro ⟨hb, hl⟩
      exact ⟨hl x (Or.inl rfl), hb, fun y hy => hl y (Or.inr hy)⟩

lemma foldr_max_lt_iff {a b : ℚ} {l : List ℚ} :
    l.foldr max b < a ↔ b < a ∧ ∀ x ∈ l, x < a := by
  induction l with
  | nil => simp
  | cons x l ih =>
    simp only [List.foldr_cons, max_lt_iff, ih, List.mem_cons]
    constructor
    · rintro ⟨hx, hb, hl⟩
      exact ⟨hb, fun y hy => hy.elim (fun h => h ▸ hx) (hl y)⟩
    · rintro ⟨hb, hl⟩
      exact ⟨hl x (Or.inl rfl), hb, fun y hy => hl y (Or.inr hy)⟩

/-- `Likelihood.log_prior` (Likelihood.py lines 557-572):
`if np.min(f) > -4. and np.max(f) < 4.: return 0.` else `return -np.inf`,
for a parameter array with `n` entries (`-np.inf` modelled as `⊥`). -/
def log_prior (n : ℕ) (f : ℕ → ℚ) : WithBot ℚ :=
  if -4 < npMin n f ∧ npMax n f < 4 then ((0 : ℚ) : WithBot ℚ) else ⊥

/-- `Likelihood.log_probability` (Likelihood.py lines 575-591):
`lp = log_prior(f); if not np.isfinite(lp): return -np.inf;
return lp + log_likelihood(f)`.  The parameter dimension is
`Ebinmax - Ebinmin` (the MCMC dimension, Likelihood.py line 605). -/
def log_probability (st : LikelihoodState) (f : ℕ → ℚ) : WithBot ℚ :=
  if log_prior (st.Ebinmax - st.Ebinmin) f = ⊥ then ⊥
  else log_prior (st.Ebinmax - st.Ebinmin) f + ((log_likelihood st f : ℚ) : WithBot ℚ)

/-- C9: for every positive parameter dimension `n` and parameter vector `f`,
`log_prior` is `0` exactly when every coordinate lies strictly inside the
box `(-4, 4)`, is `-∞` otherwise, and whenever it is `-∞`,
`log_probability` returns `-∞` for every engine state of dimension `n`
(hence independently of the likelihood, which is never combined into the
result). -/
theorem log_prior_box_and_shortcircuit (n : ℕ) (hn : 0 < n) (f : ℕ → ℚ) :
    (log_prior n f = ((0 : ℚ) : WithBot ℚ) ↔ ∀ i < n, -4 < f i ∧ f i < 4) ∧
    ((¬ ∀ i < n, -4 < f i ∧ f i < 4) → log_prior n f = ⊥) ∧
    (log_prior n f = ⊥ →
      ∀ st : LikelihoodState, st.Ebinmax - st.Ebinmin = n → log_probability st f = ⊥) := by
  have hmin : (-4 < npMin n f) ↔ ∀ i < n, -4 < f i := by
    unfold npMin
    rw [lt_foldr_min_iff]
    constructor
    · rintro ⟨_, hall⟩ i hi
      exact hall (f i) (List.mem_map_of_mem f (List.mem_range.mpr hi))
    · intro h
      refine ⟨h 0 hn, ?_⟩
      rintro x hx
      obtain ⟨i, hi, rfl⟩ := List.mem_map.mp hx
      exact h i (List.mem_range.mp hi)
  have hmax : (npMax n f < 4) ↔ ∀ i < n, f i < 4 := by
    unfold npMax
    rw [foldr_max_lt_iff]
    constructor
    · rintro ⟨_, hall⟩ i hi
      exact hall (f i) (List.mem_map_of_mem f (List.mem_range.mpr hi))
    · intro h
      refine ⟨h 0 hn, ?_⟩
      rintro x hx
      obtain ⟨i, hi, rfl⟩ := List.mem_map.mp hx
      exact h i (List.mem_range.mp hi)
  have hcond : (-4 < npMin n f ∧ npMax n f < 4) ↔ ∀ i < n, -4 < f i ∧ f i < 4 := by
    rw [hmin, hmax]
    constructor
    · rintro ⟨h1, h2⟩ i hi
      exact ⟨h1 i hi, h2 i hi⟩
    · intro h
      exact ⟨fun i hi => (h i hi).1, fun i hi => (h i hi).2⟩
  refine ⟨?_, ?_, ?_⟩
  · unfold log_prior
    split_ifs with h
    · simp only [true_iff]
      exact hcond.mp h
    · constructor
      · intro hbot
        exact absurd hbot (by simp)
      · exact fun hb => absurd (hcond.mpr hb) h
  · intro hbox
    unfold log_prior
    rw [if_neg (fun hc => hbox (hcond.mp hc))]
  · intro hbot st hst
    unfold log_probability
    rw [hst, hbot]
    rw [if_pos rfl]

/-- C9 witness: on a concrete out-of-box vector the prior is `-∞` and
`log_probability` short-circuits to `-∞` on a concrete state. -/
theorem log_prior_box_and_shortcircuit_witness :
    log_probability sampleState (fun _ => 5) = ⊥ :=
  (log_prior_box_and_shortcircuit 1 one_pos (fun _ => 5)).2.2
    ((log_prior_box_and_shortcircuit 1 one_pos (fun _ => 5)).2.1
      (fun h => absurd (h 0 one_pos).2 (by norm_num)))
    sampleState rfl

/-- `Likelihood.inputData` (Likelihood.py lines 259-288) with the default
empty `bootstrap_error`: after storing the sample-derived spectrum, the
branch `if hasattr(self, 'w_atm_std')` copies `w_atm_std` into `w_std` and
`w_atm_std_square` into `w_std_square`; otherwise both are set to
`np.zeros((NEbin, NCL))`.  The possibly-absent attribute `w_atm_std` is
modelled as an `Option`; every site creating it also sets
`w_atm_std_square = w_atm_std ** 2` (Likelihood.py lines 122-123, 249-251),
so the square field follows the squared value in the `some` case.  The
remaining fields assemble the state the likelihood methods subsequently
read. -/
def inputData (Ebinmin Ebinmax lmin ncl : ℕ)
    (w_data w_model_f1 w_atm_mean : ℕ → ℕ → ℚ)
    (w_atm_std : Option (ℕ → ℕ → ℚ)) : LikelihoodState where
  Ebinmin := Ebinmin
  Ebinmax := Ebinmax
  lmin := lmin
  ncl := ncl
  w_data := w_data
  w_model_f1 := w_model_f1
  w_atm_mean := w_atm_mean
  w_std :=
    match w_atm_std with
    | some a => a
    | none => fun _ _ => 0
  w_std_square :=
    match w_atm_std with
    | some a => fun e l => a e l ^ 2
    | none => fun _ _ => 0

/-- C10: when `inputData` runs before the atmospheric standard deviation
exists, `w_std` and `w_std_square` become all-zero arrays and every
subsequent `log_likelihood_Ebin` evaluation divides by the zero variance
with no guard (the denominator of every summand is literally `0`); under the
precondition that `w_atm_std` exists and is everywhere positive, every
variance entry used in the division is positive. -/
theorem inputData_zero_variance_unguarded
    (Ebinmin Ebinmax lmin ncl : ℕ) (w_data w_model_f1 w_atm_mean : ℕ → ℕ → ℚ)
    (a : ℕ → ℕ → ℚ) (hpos : ∀ e l, 0 < a e l) :
    (∀ e l,
      (inputData Ebinmin Ebinmax lmin ncl w_data w_model_f1 w_atm_mean none).w_std e l = 0 ∧
      (inputData Ebinmin Ebinmax lmin ncl w_data w_model_f1 w_atm_mean none).w_std_square e l
        = 0) ∧
    (∀ f e, log_likelihood_Ebin
        (inputData Ebinmin Ebinmax lmin ncl w_data w_model_f1 w_atm_mean none) f e =
      ∑ l in Finset.Ico lmin ncl,
        -((w_data e l - (w_model_f1 e l * f + w_atm_mean e l * (1 - f))) ^ 2 / 0 / 2)) ∧
    (∀ e l, 0 < (inputData Ebinmin Ebinmax lmin ncl w_data w_model_f1 w_atm_mean
        (some a)).w_std_square e l) := by
  refine ⟨fun e l => ⟨rfl, rfl⟩, fun f e => rfl, fun e l => ?_⟩
  have := hpos e l
  show 0 < a e l ^ 2
  positivity

/-- C10 witness: the guard precondition discharged on a concrete positive
standard deviation. -/
theorem inputData_zero_variance_unguarded_witness :
    0 < (inputData 0 1 0 1 (fun _ _ => 0) (fun _ _ => 0) (fun _ _ => 0)
      (some (fun _ _ => 1))).w_std_square 0 0 :=
  (inputData_zero_variance_unguarded 0 1 0 1 (fun _ _ => 0) (fun _ _ => 0) (fun _ _ => 0)
    (fun _ _ => 1) (fun _ _ => by norm_num)).2.2 0 0

/-- Mathematical model of `scipy.stats.multivariate_normal.logpdf` for a
diagonal covariance matrix with diagonal `variance` over the index set `s`:
`-(x-mean)ᵀ Σ⁻¹ (x-mean) / 2 - log det (2π Σ) / 2`. -/
noncomputable def mvn_logpdf_diag (s : Finset ℕ) (x mean variance : ℕ → ℝ) : ℝ :=
  -(∑ l in s, (x l - mean l) ^ 2 / variance l) / 2
    - (∑ l in s, Real.log (2 * Real.pi * variance l)) / 2

/-- The value the spec claims for `log_likelihood_Ebin`, written from the
spec's words: the closed-form multivariate-normal log-density (normalization
constant included) evaluated at the observed spectrum restricted to
multipoles `≥ lmin`, with mean `f·signal[bin] + (1-f)·background[bin]` and
the bin's (diagonal) covariance. -/
noncomputable def spec_log_density_Ebin (st : LikelihoodState) (f : ℚ) (e : ℕ) : ℝ :=
  mvn_logpdf_diag (Finset.Ico st.lmin st.ncl)
    (fun l => (st.w_data e l : ℝ))
    (fun l => (st.w_model_f1 e l : ℝ) * (f : ℝ) + (st.w_atm_mean e l : ℝ) * (1 - (f : ℝ)))
    (fun l => (st.w_std_square e l : ℝ))

/-- C1 counterexample: on a concrete one-bin, one-multipole state with unit
variance, `log_likelihood_Ebin` returns the bare quadratic form `-1/2`,
whereas the multivariate-normal log-density with the normalization constant
is `-1/2 - log(2π)/2`; the two differ. -/
theorem log_likelihood_Ebin_ne_spec_log_density :
    ((log_likelihood_Ebin sampleState 0 0 : ℚ) : ℝ) ≠ spec_log_density_Ebin sampleState 0 0 := by
  have hlog : 0 < Real.log (2 * Real.pi) :=
    Real.log_pos (by nlinarith [Real.pi_gt_three])
  have hL : log_likelihood_Ebin sampleState 0 0 = -(1/2 : ℚ) := by
    norm_num [log_likelihood_Ebin, sampleState, ← Finset.range_eq_Ico]
  have hR : spec_log_density_Ebin sampleState 0 0 =
      -(1/2 : ℝ) - Real.log (2 * Real.pi) / 2 := by
    simp only [spec_log_density_Ebin, mvn_logpdf_diag, sampleState, ← Finset.range_eq_Ico,
      Finset.sum_range_one]
    norm_num
  rw [hL, hR]
  push_cast
  intro h
  linarith

/-- C1 (amended): `log_likelihood_Ebin` equals the closed-form
multivariate-normal log-density at the observed spectrum (mean
`f·signal + (1-f)·background`, the bin's diagonal covariance, multipoles
`≥ lmin`) with the normalization constant of the normal density omitted:
i.e. it equals the full log-density plus the bin's constant
`(∑ log(2π·σ²))/2`. -/
theorem log_likelihood_Ebin_eq_spec_log_density_add_const
    (st : LikelihoodState) (f : ℚ) (e : ℕ) :
    ((log_likelihood_Ebin st f e : ℚ) : ℝ) =
      spec_log_density_Ebin st f e +
        (∑ l in Finset.Ico st.lmin st.ncl,
          Real.log (2 * Real.pi * (st.w_std_square e l : ℝ))) / 2 := by
  unfold spec_log_density_Ebin mvn_logpdf_diag log_likelihood_Ebin
  push_cast
  rw [Finset.sum_neg_distrib, ← Finset.sum_div]
  ring

section Scipy

open MeasureTheory Real Filter Set ProbabilityTheory Topology

/-- The (unnormalized) standard normal density integrand. -/
noncomputable def stdGauss (t : ℝ) : ℝ := Real.exp (-t ^ 2 / 2)

lemma stdGauss_eq : stdGauss = fun t : ℝ => Real.exp (-(1/2 : ℝ) * t ^ 2) := by
  funext t
  unfold stdGauss
  congr 1
  ring

lemma stdGauss_pos (t : ℝ) : 0 < stdGauss t := Real.exp_pos _

lemma stdGauss_integrable : Integrable stdGauss := by
  rw [stdGauss_eq]
  exact integrable_exp_neg_mul_sq (by norm_num)

lemma sqrt_two_pi_pos : 0 < Real.sqrt (2 * π) := Real.sqrt_pos.mpr (by positivity)

lemma stdGauss_integral_Ioi_zero :
    ∫ t in Ioi (0 : ℝ), stdGauss t = Real.sqrt (2 * π) / 2 := by
  rw [stdGauss_eq]
  rw [integral_gaussian_Ioi (1/2)]
  rw [show π / (1/2 : ℝ) = 2 * π from by ring]

lemma stdGauss_integral_total : ∫ t, stdGauss t = Real.sqrt (2 * π) := by
  rw [stdGauss_eq]
  rw [integral_gaussian (1/2)]
  rw [show π / (1/2 : ℝ) = 2 * π from by ring]

lemma stdGauss_integral_Iic_zero :
    ∫ t in Iic (0 : ℝ), stdGauss t = Real.sqrt (2 * π) / 2 := by
  have h := integral_comp_neg_Ioi (0 : ℝ) stdGauss
  simp only [neg_zero] at h
  have he : ∀ x : ℝ, stdGauss (-x) = stdGauss x := by
    intro x
    unfold stdGauss
    congr 1
    ring
  rw [← h]
  simp only [he]
  exact stdGauss_integral_Ioi_zero

lemma stdGauss_integral_Ioi_split {z w : ℝ} (h : z ≤ w) :
    ∫ t in Ioi z, stdGauss t = (∫ t in z..w, stdGauss t) + ∫ t in Ioi w, stdGauss t := by
  rw [intervalIntegral.integral_of_le h,
    ← MeasureTheory.setIntegral_union (Set.Ioc_disjoint_Ioi le_rfl) measurableSet_Ioi
      stdGauss_integrable.integrableOn stdGauss_integrable.integrableOn,
    Set.Ioc_union_Ioi_eq_Ioi h]

/-- Mathematical model of the survival function of the standard normal
distribution (the distribution used by `scipy.stats.norm`):
`sf z = ∫_z^∞ exp(-t²/2) dt / √(2π)`. -/
noncomputable def norm_sf (z : ℝ) : ℝ :=
  (Real.sqrt (2 * Real.pi))⁻¹ * ∫ t in Ioi z, stdGauss t

lemma norm_sf_eq_primitive (z : ℝ) :
    norm_sf z = 1/2 - (Real.sqrt (2 * π))⁻¹ * ∫ t in (0:ℝ)..z, stdGauss t := by
  rcases le_total (0 : ℝ) z with h | h
  · have hs := stdGauss_integral_Ioi_split h
    rw [stdGauss_integral_Ioi_zero] at hs
    have h1 : ∫ t in Ioi z, stdGauss t
        = Real.sqrt (2 * π) / 2 - ∫ t in (0:ℝ)..z, stdGauss t := by linarith
    unfold norm_sf
    rw [h1, mul_sub, ← mul_div_assoc, inv_mul_cancel₀ sqrt_two_pi_pos.ne']
  · have hs := stdGauss_integral_Ioi_split h
    rw [stdGauss_integral_Ioi_zero] at hs
    have hsym : ∫ t in (0:ℝ)..z, stdGauss t = -∫ t in z..(0:ℝ), stdGauss t := by
      rw [intervalIntegral.integral_symm]
    unfold norm_sf
    rw [hs, hsym, mul_add, ← mul_div_assoc, inv_mul_cancel₀ sqrt_two_pi_pos.ne']
    ring

lemma norm_sf_strictAnti : StrictAnti norm_sf := by
  intro z w hzw
  have hadd : (∫ t in (0:ℝ)..z, stdGauss t) + ∫ t in z..w, stdGauss t
      = ∫ t in (0:ℝ)..w, stdGauss t :=
    intervalIntegral.integral_add_adjacent_intervals
      stdGauss_integrable.intervalIntegrable stdGauss_integrable.intervalIntegrable
  have hpos : 0 < ∫ t in z..w, stdGauss t :=
    intervalIntegral.intervalIntegral_pos_of_pos
      stdGauss_integrable.intervalIntegrable stdGauss_pos hzw
  have hc : 0 < (Real.sqrt (2 * π))⁻¹ := inv_pos.mpr sqrt_two_pi_pos
  rw [norm_sf_eq_primitive, norm_sf_eq_primitive, ← hadd]
  nlinarith [mul_pos hc hpos]

lemma norm_sf_continuous : Continuous norm_sf := by
  have hprim : Continuous fun z : ℝ => ∫ t in (0:ℝ)..z, stdGauss t :=
    stdGauss_integrable.continuous_primitive 0
  have h : norm_sf = fun z => 1/2 - (Real.sqrt (2 * π))⁻¹ * ∫ t in (0:ℝ)..z, stdGauss t :=
    funext norm_sf_eq_primitive
  rw [h]
  exact continuous_const.sub (continuous_const.mul hprim)

lemma norm_sf_pos (z : ℝ) : 0 < norm_sf z := by
  have hsplit := stdGauss_integral_Ioi_split (le_of_lt (lt_add_one z))
  have hpos : 0 < ∫ t in z..(z+1), stdGauss t :=
    intervalIntegral.intervalIntegral_pos_of_pos
      stdGauss_integrable.intervalIntegrable stdGauss_pos (lt_add_one z)
  have htail : 0 ≤ ∫ t in Ioi (z+1), stdGauss t :=
    setIntegral_nonneg measurableSet_Ioi fun t _ => (stdGauss_pos t).le
  have hIoi : 0 < ∫ t in Ioi z, stdGauss t := by
    rw [hsplit]
    linarith
  exact mul_pos (inv_pos.mpr sqrt_two_pi_pos) hIoi

lemma norm_sf_lt_one (z : ℝ) : norm_sf z < 1 := by
  have hsplit : (∫ t in Iic z, stdGauss t) + ∫ t in Ioi z, stdGauss t = ∫ t, stdGauss t := by
    rw [← Set.compl_Iic (a := z)]
    exact MeasureTheory.integral_add_compl measurableSet_Iic stdGauss_integrable
  have hIic_pos : 0 < ∫ t in Iic z, stdGauss t := by
    have hsplit2 : ∫ t in Iic z, stdGauss t
        = (∫ t in Iic (z-1), stdGauss t) + ∫ t in Ioc (z-1) z, stdGauss t := by
      rw [← MeasureTheory.setIntegral_union (Set.Iic_disjoint_Ioc le_rfl) measurableSet_Ioc
        stdGauss_integrable.integrableOn stdGauss_integrable.integrableOn,
        Set.Iic_union_Ioc_eq_Iic (by linarith)]
    have h1 : 0 ≤ ∫ t in Iic (z-1), stdGauss t :=
      setIntegral_nonneg measurableSet_Iic fun t _ => (stdGauss_pos t).le
    have h2 : 0 < ∫ t in Ioc (z-1) z, stdGauss t := by
      rw [← intervalIntegral.integral_of_le (by linarith : z - 1 ≤ z)]
      exact intervalIntegral.intervalIntegral_pos_of_pos
        stdGauss_integrable.intervalIntegrable stdGauss_pos (by linarith)
    rw [hsplit2]
    linarith
  rw [stdGauss_integral_total] at hsplit
  have hc : 0 < (Real.sqrt (2 * π))⁻¹ := inv_pos.mpr sqrt_two_pi_pos
  have hc1 : (Real.sqrt (2 * π))⁻¹ * Real.sqrt (2 * π) = 1 :=
    inv_mul_cancel₀ sqrt_two_pi_pos.ne'
  unfold norm_sf
  nlinarith [mul_pos hc hIic_pos]

lemma norm_sf_tendsto_atTop : Tendsto norm_sf atTop (𝓝 0) := by
  have h : Tendsto (fun z : ℝ => ∫ t in (0:ℝ)..z, stdGauss t) atTop
      (𝓝 (∫ t in Ioi (0:ℝ), stdGauss t)) :=
    MeasureTheory.intervalIntegral_tendsto_integral_Ioi 0
      stdGauss_integrable.integrableOn tendsto_id
  rw [stdGauss_integral_Ioi_zero] at h
  have heq : norm_sf = fun z => 1/2 - (Real.sqrt (2 * π))⁻¹ * ∫ t in (0:ℝ)..z, stdGauss t :=
    funext norm_sf_eq_primitive
  rw [heq]
  have hlim := (tendsto_const_nhds (x := (1/2 : ℝ)) (f := atTop)).sub
    ((tendsto_const_nhds (x := (Real.sqrt (2 * π))⁻¹) (f := atTop)).mul h)
  have hval : 1/2 - (Real.sqrt (2 * π))⁻¹ * (Real.sqrt (2 * π) / 2) = (0 : ℝ) := by
    rw [← mul_div_assoc, inv_mul_cancel₀ sqrt_two_pi_pos.ne']
    norm_num
  rwa [hval] at hlim

lemma norm_sf_tendsto_atBot : Tendsto norm_sf atBot (𝓝 1) := by
  have h : Tendsto (fun z : ℝ => ∫ t in z..(0:ℝ), stdGauss t) atBot
      (𝓝 (∫ t in Iic (0:ℝ), stdGauss t)) :=
    MeasureTheory.intervalIntegral_tendsto_integral_Iic 0
      stdGauss_integrable.integrableOn tendsto_id
  rw [stdGauss_integral_Iic_zero] at h
  have heq : norm_sf = fun z => 1/2 + (Real.sqrt (2 * π))⁻¹ * ∫ t in z..(0:ℝ), stdGauss t := by
    funext z
    rw [norm_sf_eq_primitive z, intervalIntegral.integral_symm]
    ring
  rw [heq]
  have hlim := (tendsto_const_nhds (x := (1/2 : ℝ)) (f := atBot)).add
    ((tendsto_const_nhds (x := (Real.sqrt (2 * π))⁻¹) (f := atBot)).mul h)
  have hval : 1/2 + (Real.sqrt (2 * π))⁻¹ * (Real.sqrt (2 * π) / 2) = (1 : ℝ) := by
    rw [← mul_div_assoc, inv_mul_cancel₀ sqrt_two_pi_pos.ne']
    norm_num
  rwa [hval] at hlim

lemma norm_sf_surj {p : ℝ} (hp : p ∈ Ioo (0:ℝ) 1) : ∃ z, norm_sf z = p := by
  obtain ⟨a, ha⟩ : ∃ a, norm_sf a < p :=
    (norm_sf_tendsto_atTop.eventually_lt_const hp.1).exists
  obtain ⟨b, hb⟩ : ∃ b, p < norm_sf b :=
    (norm_sf_tendsto_atBot.eventually_const_lt hp.2).exists
  have hmem : p ∈ uIcc (norm_sf a) (norm_sf b) := by
    rw [Set.mem_uIcc]
    exact Or.inl ⟨ha.le, hb.le⟩
  obtain ⟨z, _, hz⟩ := intermediate_value_uIcc (norm_sf_continuous.continuousOn) hmem
  exact ⟨z, hz⟩

/-- Mathematical model of `scipy.stats.norm.isf`, the inverse of the standard
normal survival function. -/
noncomputable def norm_isf (p : ℝ) : ℝ := Function.invFun norm_sf p

lemma norm_isf_norm_sf (z : ℝ) : norm_isf (norm_sf z) = z :=
  Function.leftInverse_invFun norm_sf_strictAnti.injective z

lemma norm_sf_norm_isf {p : ℝ} (hp : p ∈ Ioo (0:ℝ) 1) : norm_sf (norm_isf p) = p :=
  Function.invFun_eq (norm_sf_surj hp)

lemma norm_isf_lt_norm_isf {p q : ℝ} (hp : p ∈ Ioo (0:ℝ) 1) (hq : q ∈ Ioo (0:ℝ) 1)
    (hpq : p < q) : norm_isf q < norm_isf p := by
  by_contra hcon
  push_neg at hcon
  have h := norm_sf_strictAnti.antitone hcon
  rw [norm_sf_norm_isf hq, norm_sf_norm_isf hp] at h
  linarith

/-- Mathematical model of `scipy.stats.distributions.chi2.sf`: the chi-squared
distribution with `dof` degrees of freedom is the Gamma distribution with
shape `dof/2` and rate `1/2`, and the survival function is one minus its
cumulative distribution function. -/
noncomputable def chi2_sf (chi_square : ℝ) (dof : ℕ) : ℝ :=
  1 - ProbabilityTheory.gammaCDFReal ((dof : ℝ) / 2) (1 / 2) chi_square

lemma gammaPDF_measurable (a r : ℝ) : Measurable (ProbabilityTheory.gammaPDF a r) :=
  (ProbabilityTheory.measurable_gammaPDFReal a r).ennreal_ofReal

lemma gammaMeasure_Iic_nonpos (a r : ℝ) {x : ℝ} (hx : x ≤ 0) :
    ProbabilityTheory.gammaMeasure a r (Iic x) = 0 := by
  rw [ProbabilityTheory.gammaMeasure, MeasureTheory.withDensity_apply _ measurableSet_Iic,
    MeasureTheory.setLIntegral_congr (MeasureTheory.Iio_ae_eq_Iic (a := x)).symm]
  exact ProbabilityTheory.lintegral_gammaPDF_of_nonpos hx

lemma gammaMeasure_Ioc_pos {a r : ℝ} (ha : 0 < a) (hr : 0 < r) {x y : ℝ}
    (hx : 0 ≤ x) (hxy : x < y) :
    0 < ProbabilityTheory.gammaMeasure a r (Ioc x y) := by
  rw [ProbabilityTheory.gammaMeasure, MeasureTheory.withDensity_apply _ measurableSet_Ioc,
    MeasureTheory.lintegral_pos_iff_support (gammaPDF_measurable a r),
    Measure.restrict_apply' measurableSet_Ioc]
  have hsub : Ioc x y ⊆ Function.support (ProbabilityTheory.gammaPDF a r) := by
    intro t ht
    have htpos : 0 < t := lt_of_le_of_lt hx ht.1
    have hpdf : 0 < ProbabilityTheory.gammaPDFReal a r t :=
      ProbabilityTheory.gammaPDFReal_pos ha hr htpos
    exact Function.mem_support.mpr (ENNReal.ofReal_pos.mpr hpdf).ne'
  rw [Set.inter_eq_self_of_subset_right hsub, Real.volume_Ioc]
  exact ENNReal.ofReal_pos.mpr (by linarith)

lemma gammaCDFReal_zero {a r : ℝ} (ha : 0 < a) (hr : 0 < r) :
    ProbabilityTheory.gammaCDFReal a r 0 = 0 := by
  haveI := ProbabilityTheory.isProbabilityMeasureGamma ha hr
  have hdef : ⇑(ProbabilityTheory.gammaCDFReal a r)
      = ⇑(ProbabilityTheory.cdf (ProbabilityTheory.gammaMeasure a r)) := rfl
  rw [hdef, ProbabilityTheory.cdf_eq_toReal, gammaMeasure_Iic_nonpos a r le_rfl]
  simp

lemma gammaCDFReal_lt_gammaCDFReal {a r : ℝ} (ha : 0 < a) (hr : 0 < r) {x y : ℝ}
    (hx : 0 ≤ x) (hxy : x < y) :
    ProbabilityTheory.gammaCDFReal a r x < ProbabilityTheory.gammaCDFReal a r y := by
  haveI := ProbabilityTheory.isProbabilityMeasureGamma ha hr
  have hdef : ⇑(ProbabilityTheory.gammaCDFReal a r)
      = ⇑(ProbabilityTheory.cdf (ProbabilityTheory.gammaMeasure a r)) := rfl
  have hsplit : (ProbabilityTheory.gammaMeasure a r) (Iic y)
      = (ProbabilityTheory.gammaMeasure a r) (Iic x)
        + (ProbabilityTheory.gammaMeasure a r) (Ioc x y) := by
    rw [← MeasureTheory.measure_union (Set.Iic_disjoint_Ioc le_rfl) measurableSet_Ioc,
      Set.Iic_union_Ioc_eq_Iic hxy.le]
  rw [hdef, ProbabilityTheory.cdf_eq_toReal, ProbabilityTheory.cdf_eq_toReal, hsplit,
    ENNReal.toReal_add (measure_ne_top _ _) (measure_ne_top _ _)]
  have hpos := ENNReal.toReal_pos (gammaMeasure_Ioc_pos ha hr hx hxy).ne' (measure_ne_top _ _)
  linarith

lemma gammaCDFReal_lt_one {a r : ℝ} (ha : 0 < a) (hr : 0 < r) (x : ℝ) :
    ProbabilityTheory.gammaCDFReal a r x < 1 := by
  haveI := ProbabilityTheory.isProbabilityMeasureGamma ha hr
  have hdef : ⇑(ProbabilityTheory.gammaCDFReal a r)
      = ⇑(ProbabilityTheory.cdf (ProbabilityTheory.gammaMeasure a r)) := rfl
  have hIoi : 0 < (ProbabilityTheory.gammaMeasure a r) (Ioi x) := by
    refine lt_of_lt_of_le
      (gammaMeasure_Ioc_pos ha hr (le_max_right x 0) (lt_add_one (max x 0)))
      (measure_mono ?_)
    intro t ht
    exact lt_of_le_of_lt (le_max_left x 0) ht.1
  have hsum : (ProbabilityTheory.gammaMeasure a r) (Iic x)
      + (ProbabilityTheory.gammaMeasure a r) (Ioi x) = 1 := by
    rw [← MeasureTheory.measure_union (Set.Iic_disjoint_Ioi le_rfl) measurableSet_Ioi,
      Set.Iic_union_Ioi]
    exact measure_univ
  have htadd := ENNReal.toReal_add (a := (ProbabilityTheory.gammaMeasure a r) (Iic x))
    (b := (ProbabilityTheory.gammaMeasure a r) (Ioi x)) (measure_ne_top _ _) (measure_ne_top _ _)
  rw [hsum, ENNReal.one_toReal] at htadd
  have hBpos : 0 < ((ProbabilityTheory.gammaMeasure a r) (Ioi x)).toReal :=
    ENNReal.toReal_pos hIoi.ne' (measure_ne_top _ _)
  rw [hdef, ProbabilityTheory.cdf_eq_toReal]
  linarith

lemma chi2_shape_pos {dof : ℕ} (hdof : 1 ≤ dof) : 0 < (dof : ℝ) / 2 := by
  have : (0 : ℝ) < dof := by exact_mod_cast hdof
  positivity

lemma chi2_sf_zero {dof : ℕ} (hdof : 1 ≤ dof) : chi2_sf 0 dof = 1 := by
  unfold chi2_sf
  rw [gammaCDFReal_zero (chi2_shape_pos hdof) (by norm_num)]
  ring

lemma chi2_sf_pos {dof : ℕ} (hdof : 1 ≤ dof) (x : ℝ) : 0 < chi2_sf x dof := by
  unfold chi2_sf
  linarith [gammaCDFReal_lt_one (chi2_shape_pos hdof) (by norm_num : (0:ℝ) < 1/2) x]

lemma chi2_sf_le_one {dof : ℕ} (x : ℝ) : chi2_sf x dof ≤ 1 := by
  unfold chi2_sf
  have hdef : ⇑(ProbabilityTheory.gammaCDFReal ((dof : ℝ) / 2) (1/2))
      = ⇑(ProbabilityTheory.cdf (ProbabilityTheory.gammaMeasure ((dof : ℝ) / 2) (1/2))) := rfl
  rw [hdef]
  linarith [ProbabilityTheory.cdf_nonneg (ProbabilityTheory.gammaMeasure ((dof : ℝ) / 2) (1/2)) x]

lemma chi2_sf_strictAnti {dof : ℕ} (hdof : 1 ≤ dof) {x y : ℝ} (hx : 0 ≤ x) (hxy : x < y) :
    chi2_sf y dof < chi2_sf x dof := by
  unfold chi2_sf
  have := gammaCDFReal_lt_gammaCDFReal (chi2_shape_pos hdof) (by norm_num : (0:ℝ) < 1/2) hx hxy
  linarith

/-- `significance` (Likelihood.py lines 31-45):
`p_value = distributions.chi2.sf(chi_square, dof)`, returning
`norm.isf(p_value / 2)`. -/
noncomputable def significance (chi_square : ℝ) (dof : ℕ) : ℝ :=
  norm_isf (chi2_sf chi_square dof / 2)

/-- C8: `significance(0, dof=1) = 0`, and for every fixed number of degrees
of freedom `dof ≥ 1`, `significance` is strictly increasing in the (by
nature nonnegative) `chi_square` argument. -/
theorem significance_zero_and_strictMono :
    significance 0 1 = 0 ∧
    ∀ dof : ℕ, 1 ≤ dof → ∀ x y : ℝ, 0 ≤ x → x < y →
      significance x dof < significance y dof := by
  constructor
  · unfold significance
    rw [chi2_sf_zero le_rfl]
    have h0 : norm_sf 0 = 1/2 := by
      rw [norm_sf_eq_primitive]
      simp
    calc norm_isf ((1:ℝ)/2) = norm_isf (norm_sf 0) := by rw [h0]
      _ = 0 := norm_isf_norm_sf 0
  · intro dof hdof x y hx hxy
    have hlt := chi2_sf_strictAnti hdof hx hxy
    have hypos := chi2_sf_pos hdof y
    have hxpos := chi2_sf_pos hdof x
    have hyle := @chi2_sf_le_one dof y
    have hxle := @chi2_sf_le_one dof x
    unfold significance
    exact norm_isf_lt_norm_isf
      (Set.mem_Ioo.mpr ⟨by linarith, by linarith⟩)
      (Set.mem_Ioo.mpr ⟨by linarith, by linarith⟩)
      (by linarith)

/-- C8 witness: the two parts of the claim instantiated at concrete
arguments (`chi_square` 0 and 1, one degree of freedom). -/
theorem significance_zero_and_strictMono_witness :
    significance 0 1 = 0 ∧ significance 0 1 < significance 1 1 :=
  ⟨significance_zero_and_strictMono.1,
    significance_zero_and_strictMono.2 1 le_rfl 0 1 le_rfl one_pos⟩

end Scipy

end NuXgal
